import Mathlib

/-!
Shallow embedding of the core of the vortex columnar array system, together
with proofs checking the natural-language specification against the code.

Conventions of the embedding:
* machine integers (u64, u32, usize) are modelled as Nat; no arithmetic in the
  verified fragments overflows 64 bits under the stated hypotheses;
* a Rust BooleanBuffer is modelled as a List Bool; a bool Array child (such as
  the materialized validity mask) is represented by its flattened boolean
  buffer, which is exactly what the source compares and combines;
* fallible Rust code (VortexResult) is modelled with Except VErr; a Rust panic
  (slice index out of bounds, unimplemented!) is modelled as a distinct
  outcome (Option none, or an explicit panicked constructor), never as an
  error value, since panics are not returned to the caller.
-/

namespace Vortex

/-- Comparison operators, from vortex-expr operators::Operator as used by the
bool compare kernel. -/
inductive Operator where
  | equalTo
  | notEqualTo
  | greaterThan
  | greaterThanOrEqualTo
  | lessThan
  | lessThanOrEqualTo
deriving DecidableEq

/-- Nullability flag, from vortex-dtype nullability.rs. -/
inductive Nullability where
  | nonNullable
  | nullable
deriving DecidableEq

/-- Primitive type tags, from vortex-dtype PType. -/
inductive PType where
  | i8 | i16 | i32 | i64
  | u8 | u16 | u32 | u64
  | f16 | f32 | f64
deriving DecidableEq

/-- Error kinds surfaced by the modelled fragments (vortex-error). Only the
kinds the claims mention are distinguished. -/
inductive VErr where
  | notImplemented (op : String) (encodingId : String)
  | outOfBounds (message : String)
  | nullsInNonNullable
  | other (message : String)
deriving DecidableEq

/-- Logical types, from vortex-dtype dtype.rs (DType). Field names of a struct
are kept as a list of strings; an extension dtype keeps only its id, which is
all the nullability logic inspects. -/
inductive DType where
  | null
  | bool (n : Nullability)
  | primitive (p : PType) (n : Nullability)
  | utf8 (n : Nullability)
  | binary (n : Nullability)
  | struct (names : List String) (dtypes : List DType) (n : Nullability)
  | list (element : DType) (n : Nullability)
  | ext (id : String) (n : Nullability)

mutual

/-- Structural equality on DType, modelling the derived PartialEq instance of
the source (equality includes the nullability flags). -/
def DType.beq : DType → DType → Bool
  | .null, .null => true
  | .bool n1, .bool n2 => n1 == n2
  | .primitive p1 n1, .primitive p2 n2 => p1 == p2 && n1 == n2
  | .utf8 n1, .utf8 n2 => n1 == n2
  | .binary n1, .binary n2 => n1 == n2
  | .struct names1 fields1 n1, .struct names2 fields2 n2 =>
    names1 == names2 && DType.beqList fields1 fields2 && n1 == n2
  | .list e1 n1, .list e2 n2 => DType.beq e1 e2 && n1 == n2
  | .ext id1 n1, .ext id2 n2 => id1 == id2 && n1 == n2
  | _, _ => false

/-- Pointwise structural equality on lists of DType. -/
def DType.beqList : List DType → List DType → Bool
  | [], [] => true
  | x :: xs, y :: ys => DType.beq x y && DType.beqList xs ys
  | _, _ => false

end

mutual

/-- Translation of DType::is_nullable (dtype.rs lines 39-52). Note that the
Struct arm discards the container's nullability flag and asks only whether
every field dtype is nullable. -/
def DType.is_nullable : DType → Bool
  | .null => true
  | .bool n => n == .nullable
  | .primitive _ n => n == .nullable
  | .utf8 n => n == .nullable
  | .binary n => n == .nullable
  | .struct _ fields _ => allNullable fields
  | .list _ n => n == .nullable
  | .ext _ n => n == .nullable

/-- Helper for the Struct arm: st.dtypes().iter().all(|f| f.is_nullable()). -/
def allNullable : List DType → Bool
  | [] => true
  | d :: ds => d.is_nullable && allNullable ds

end

/-- Translation of DType::nullability, which converts is_nullable() into a
Nullability via the From bool instance (true maps to Nullable). -/
def DType.nullability (d : DType) : Nullability :=
  if d.is_nullable then .nullable else .nonNullable

mutual

/-- Reflexivity of the modelled structural equality on DType. -/
def DType.beq_refl : ∀ (a : DType), DType.beq a a = true
  | .null => rfl
  | .bool n => by simp [DType.beq]
  | .primitive p n => by simp [DType.beq]
  | .utf8 n => by simp [DType.beq]
  | .binary n => by simp [DType.beq]
  | .struct names fields n => by simp [DType.beq, DType.beqList_refl fields]
  | .list e n => by simp [DType.beq, DType.beq_refl e]
  | .ext i n => by simp [DType.beq]

/-- Reflexivity of the modelled structural equality on lists of DType. -/
def DType.beqList_refl : ∀ (xs : List DType), DType.beqList xs xs = true
  | [] => rfl
  | x :: xs => by simp [DType.beqList, DType.beq_refl x, DType.beqList_refl xs]

end

mutual

/-- Soundness of the modelled structural equality on DType. -/
def DType.eq_of_beq : ∀ (a b : DType), DType.beq a b = true → a = b
  | .null, b => by cases b <;> simp [DType.beq]
  | .bool n1, b => by cases b <;> simp [DType.beq]
  | .primitive p1 n1, b => by cases b <;> simp [DType.beq]
  | .utf8 n1, b => by cases b <;> simp [DType.beq]
  | .binary n1, b => by cases b <;> simp [DType.beq]
  | .struct names1 fields1 n1, b => by
    cases b <;> simp [DType.beq]
    intro h1 h2 h3
    exact ⟨h1, DType.eqList_of_beqList fields1 _ h2, h3⟩
  | .list e1 n1, b => by
    cases b <;> simp [DType.beq]
    intro h1 h2
    exact ⟨DType.eq_of_beq e1 _ h1, h2⟩
  | .ext i1 n1, b => by cases b <;> simp [DType.beq]

/-- Soundness of the modelled structural equality on lists of DType. -/
def DType.eqList_of_beqList : ∀ (xs ys : List DType), DType.beqList xs ys = true → xs = ys
  | [], ys => by cases ys <;> simp [DType.beqList]
  | x :: xs, ys => by
    cases ys <;> simp [DType.beqList]
    intro h1 h2
    exact ⟨DType.eq_of_beq x _ h1, DType.eqList_of_beqList xs _ h2⟩

end

instance : DecidableEq DType := fun a b =>
  decidable_of_iff (DType.beq a b = true)
    ⟨DType.eq_of_beq a b, fun h => by subst h; exact DType.beq_refl a⟩

/-- Validity (validity.rs lines 41-47). The Array variant's child bool array
is represented by its flattened boolean buffer. -/
inductive Validity where
  | nonNullable
  | allValid
  | allInvalid
  | array (bits : List Bool)
deriving DecidableEq

/-- LogicalValidity (validity.rs lines 220-225), the read side of validity
carrying its length explicitly. -/
inductive LogicalValidity where
  | allValid (length : Nat)
  | allInvalid (length : Nat)
  | array (bits : List Bool)
deriving DecidableEq

/-- Translation of LogicalValidity::all_valid. -/
def LogicalValidity.all_valid : LogicalValidity → Bool
  | .allValid _ => true
  | _ => false

/-- Translation of LogicalValidity::all_invalid. -/
def LogicalValidity.all_invalid : LogicalValidity → Bool
  | .allInvalid _ => true
  | _ => false

/-- Translation of LogicalValidity::to_present_null_buffer (validity.rs lines
238-246): the expanded bit buffer, where true means the element is present.
NullBuffer::new_valid(l) is l ones, NullBuffer::new_null(l) is l zeros. -/
def LogicalValidity.to_present_null_buffer : LogicalValidity → List Bool
  | .allValid l => List.replicate l true
  | .allInvalid l => List.replicate l false
  | .array bits => bits

/-- Translation of LogicalValidity::to_null_buffer (validity.rs lines
228-236): None for AllValid, otherwise Some of the expanded bit buffer. -/
def LogicalValidity.to_null_buffer : LogicalValidity → Option (List Bool)
  | .allValid _ => none
  | .allInvalid l => some (List.replicate l false)
  | .array bits => some bits

/-- Statistic compute_min over a bool array: the bool stats module is not
under src; per the statistics contract the minimum of a nonempty bool array
is true iff every bit is set, and computing on an empty array yields none. -/
def computeMinBool (bits : List Bool) : Option Bool :=
  if bits.isEmpty then none else some (bits.all (fun b => b))

/-- Statistic compute_max over a bool array, symmetric to computeMinBool. -/
def computeMaxBool (bits : List Bool) : Option Bool :=
  if bits.isEmpty then none else some (bits.any (fun b => b))

/-- Translation of Validity::to_logical (validity.rs lines 117-138): the
Array variant compacts to AllValid when compute_min proves all bits set, to
AllInvalid when compute_max proves no bit set, and otherwise keeps the array. -/
def Validity.to_logical (v : Validity) (length : Nat) : LogicalValidity :=
  match v with
  | .nonNullable => .allValid length
  | .allValid => .allValid length
  | .allInvalid => .allInvalid length
  | .array bits =>
    if (computeMinBool bits).getD false then .allValid length
    else if ((computeMaxBool bits).map (fun m => !m)).getD false then .allInvalid length
    else .array bits

/-- Translation of Validity::is_valid (validity.rs lines 93-99); scalar_at on
the child bool array reads the bit at the index. -/
def Validity.isValidAt (v : Validity) (index : Nat) : Bool :=
  match v with
  | .nonNullable => true
  | .allValid => true
  | .allInvalid => false
  | .array bits => bits.getD index false

/-- Translation of Validity::nullability (validity.rs lines 86-91). -/
def Validity.nullabilityOf : Validity → Nullability
  | .nonNullable => .nonNullable
  | _ => .nullable

/-- Translation of the PartialEq impl for Validity (validity.rs lines
141-154): equal only within the same variant, and two Array variants compare
their flattened boolean buffers. -/
def Validity.beq : Validity → Validity → Bool
  | .nonNullable, .nonNullable => true
  | .allValid, .allValid => true
  | .allInvalid, .allInvalid => true
  | .array a, .array b => a == b
  | _, _ => false

/-- Translation of the From Vec bool instance for Validity (validity.rs lines
156-166): compacts to AllValid when every entry is true, to AllInvalid when
no entry is true, and otherwise materializes the bool array. -/
def Validity.fromBools (bools : List Bool) : Validity :=
  if bools.all (fun b => b) then .allValid
  else if !(bools.any (fun b => b)) then .allInvalid
  else .array bools

/-- Translation of the FromIterator LogicalValidity instance for Validity
(validity.rs lines 186-211): short-circuits when all inputs agree on a
compact variant, otherwise concatenates the expanded bit buffers (the
concatenation performed by as_contiguous over the present-null buffers). -/
def Validity.fromLogicalIter (validities : List LogicalValidity) : Validity :=
  if validities.all (fun v => v.all_valid) then .allValid
  else if validities.all (fun v => v.all_invalid) then .allInvalid
  else .array (validities.flatMap (fun v => v.to_present_null_buffer))

/-- Well-formedness of a validity against the length of its carrier array:
when the variant is Array the mask has exactly that length (the invariant the
source enforces in Validity::to_metadata). -/
def Validity.lengthMatches (v : Validity) (length : Nat) : Prop :=
  match v with
  | .array bits => bits.length = length
  | _ => True

/-- Bool array: boolean buffer plus validity (bool/mod.rs). -/
structure BoolArrayM where
  bits : List Bool
  validity : Validity
deriving DecidableEq

/-- Pointwise boolean comparison, the bitwise identities of the bool compare
kernel (compare.rs lines 15-23): eq is not-xor, ne is xor, gt is a and not b,
ge is a or not b, lt is not a and b, le is not a or b. -/
def applyOp (op : Operator) (a b : Bool) : Bool :=
  match op with
  | .equalTo => !(xor a b)
  | .notEqualTo => xor a b
  | .greaterThan => a && !b
  | .greaterThanOrEqualTo => a || !b
  | .lessThan => !a && b
  | .lessThanOrEqualTo => !a || b

/-- Translation of the CompareFn impl for BoolArray (compare.rs lines 10-33).
The right operand is flattened to a bool array and only its value buffer is
read; the result buffer is masked with the null buffer derived from the LEFT
array's validity alone, and the output is wrapped as a non-nullable bool
array (BoolArray::from on a BooleanBuffer). The source's buffer bitops
require equal lengths (they panic otherwise); zipWith agrees with them on
equal-length inputs, which is the only case the claims exercise. -/
def compareBool (a b : BoolArrayM) (op : Operator) : BoolArrayM :=
  let result_buf := List.zipWith (applyOp op) a.bits b.bits
  let masked :=
    match (a.validity.to_logical a.bits.length).to_null_buffer with
    | none => result_buf
    | some nulls => List.zipWith (fun x y => x && y) result_buf nulls
  ⟨masked, .nonNullable⟩

/-- Primitive array: the typed data slice plus validity (element values as
Int, covering every integer ptype uniformly). -/
structure PrimitiveArrayM where
  values : List Int
  validity : Validity
deriving DecidableEq

/-- Positional gather with panic propagation: the element at each index in
turn, and none as soon as one index is out of bounds (the Rust slice index
panic). -/
def gatherOpt {α : Type} (xs : List α) : List Nat → Option (List α)
  | [] => some []
  | i :: is =>
    match xs.get? i with
    | none => none
    | some v => (gatherOpt xs is).map (fun vs => v :: vs)

/-- Translation of take_primitive (primitive take.rs lines 26-31):
indices.iter().map(|idx| array[idx]).collect(). Rust slice indexing panics
when the index is out of bounds; the panic is modelled as none. -/
def take_primitive (array : List Int) (indices : List Nat) : Option (List Int) :=
  gatherOpt array indices

/-- Validity::take on the inner bool array of the Array variant delegates to
the take dispatcher on a bool array (validity.rs lines 108-115); the bool
take kernel is not under src and is modelled like take_primitive: positional
gather that panics (none) out of bounds. -/
def Validity.takeV (v : Validity) (indices : List Nat) : Option Validity :=
  match v with
  | .nonNullable => some .nonNullable
  | .allValid => some .allValid
  | .allInvalid => some .allInvalid
  | .array bits => (gatherOpt bits indices).map .array

/-- Translation of the TakeFn impl for PrimitiveArray (take.rs lines 11-24):
gathers the typed data with take_primitive and takes the validity along the
same indices; a panic in either part is a panic of the whole call (none).
The source's match over ptypes is uniform in the element type. -/
def takeFnPrimitive (a : PrimitiveArrayM) (indices : List Nat) :
    Option PrimitiveArrayM :=
  (take_primitive a.values indices).bind (fun vals =>
    (a.validity.takeV indices).map (fun vd => ⟨vals, vd⟩))

/-- Array handle as seen by the cast dispatcher: its dtype and the number of
null elements (the only attributes the cast claims inspect). -/
structure CastArrayM where
  dtype : DType
  null_count : Nat
deriving DecidableEq

/-- Modelled from the spec: the per-encoding CastFn implementations are not
under src (only the dispatcher in compute/cast.rs is). Spec 4.F: cast
performs numeric widening/narrowing and nullable to non-nullable conversion
with a null-count check, failing NullsInNonNullable if any nulls are present
when the target dtype is non-nullable. -/
def castFn (a : CastArrayM) (target : DType) : Except VErr CastArrayM :=
  if target.is_nullable = false ∧ 0 < a.null_count then .error .nullsInNonNullable
  else .ok ⟨target, a.null_count⟩

/-- Translation of the cast dispatcher (compute/cast.rs lines 10-21):
identity when the dtype already matches, otherwise the encoding's CastFn when
the capability is present, otherwise a NotImplemented error. -/
def cast (a : CastArrayM) (target : DType) (hasCastCapability : Bool) :
    Except VErr CastArrayM :=
  if a.dtype = target then .ok a
  else if hasCastCapability then castFn a target
  else .error (.notImplemented "cast" "encoding")

/-- Outcome of a call that can succeed, return an error, or panic. -/
inductive Outcome (α : Type) where
  | ok (value : α)
  | err (e : VErr)
  | panicked
deriving DecidableEq

/-- Translation of the control flow of ChunkedArrayReader::take_rows
(take_rows.rs lines 31-53): when the is_strict_sorted statistic computes to
true the sorted path runs (its outcome is the sortedPath parameter); in every
other case the function hits the unimplemented! macro, which panics. The
statistic is an Option Bool unwrapped with false as default. -/
def takeRowsModel {α : Type} (isStrictSorted : Option Bool) (sortedPath : Outcome α) :
    Outcome α :=
  if isStrictSorted.getD false then sortedPath else .panicked

deriving instance DecidableEq for Except

/-- The Rust core slice binary search loop (slice::binary_search) over a list
of Nat, searching v on the half-open range left..right. The source's
find_chunks relies on this routine from the standard library. The loop
shrinks right - left on every iteration, so running it with any fuel of at
least right - left computes the loop's result; rustBinarySearch below seeds
the fuel accordingly. -/
def binSearchLoop (xs : List Nat) (v : Nat) : Nat → Nat → Nat → Except Nat Nat
  | 0, left, _ => .error left
  | fuel + 1, left, right =>
    if left < right then
      let mid := left + (right - left) / 2
      let x := xs.getD mid 0
      if x < v then binSearchLoop xs v fuel (mid + 1) right
      else if v < x then binSearchLoop xs v fuel left mid
      else .ok mid
    else .error left

/-- Rust slice::binary_search over the whole list: Ok at a matching position,
or Err at the insertion point. -/
def rustBinarySearch (xs : List Nat) (v : Nat) : Except Nat Nat :=
  binSearchLoop xs v xs.length 0 xs.length

/-- Chunk selection for one index value (take_rows.rs line 182):
row_offsets.binary_search(idx).unwrap_or_else(|x| x - 1). The subtraction is
Nat subtraction; the source would panic on x = 0, a case excluded whenever
row_offsets starts at 0. -/
def chunkIdxOf (row_offsets : List Nat) (v : Nat) : Nat :=
  match rustBinarySearch row_offsets v with
  | .ok i => i
  | .error x => x - 1

/-- ChunkIndices (take_rows.rs lines 203-209): a selected chunk together with
the half-open range of index positions it covers. -/
structure ChunkIndices where
  chunk_idx : Nat
  indices_start : Nat
  indices_stop : Nat
deriving DecidableEq

/-- The HashMap entry update of find_chunks (take_rows.rs lines 183-192):
an existing entry for the chunk has its indices_stop advanced, a missing
entry is inserted with the singleton position range. The HashMap is modelled
as an association list with distinct chunk keys. -/
def updateEntry (m : List ChunkIndices) (c pos : Nat) : List ChunkIndices :=
  if m.any (fun ci => ci.chunk_idx == c) then
    m.map (fun ci =>
      if ci.chunk_idx == c then ⟨ci.chunk_idx, ci.indices_start, pos + 1⟩ else ci)
  else m ++ [⟨c, pos, pos + 1⟩]

/-- The enumerated loop of find_chunks (take_rows.rs lines 181-193) over the
index values, tracking the current position. -/
def findChunksLoop (row_offsets : List Nat) :
    List Nat → Nat → List ChunkIndices → List ChunkIndices
  | [], _, m => m
  | v :: rest, pos, m =>
    findChunksLoop row_offsets rest (pos + 1) (updateEntry m (chunkIdxOf row_offsets v) pos)

/-- Ordered insertion by chunk_idx, used to model emitting the HashMap
entries in ascending key order (take_rows.rs lines 195-200). -/
def insertByIdx (ci : ChunkIndices) : List ChunkIndices → List ChunkIndices
  | [] => [ci]
  | x :: xs => if ci.chunk_idx ≤ x.chunk_idx then ci :: x :: xs else x :: insertByIdx ci xs

/-- Sorting by chunk_idx; on distinct keys this is exactly
chunks.keys().sorted().map(get). -/
def sortByIdx : List ChunkIndices → List ChunkIndices
  | [] => []
  | x :: xs => insertByIdx x (sortByIdx xs)

/-- Translation of find_chunks (take_rows.rs lines 161-201). The u64 casts
and primitive flattening of the source are identities on the Nat model. The
out-of-bounds bail checks the last index against the last row offset when
both lists are nonempty. -/
def find_chunks (row_offsets indices : List Nat) : Except VErr (List ChunkIndices) :=
  match indices.getLast?, row_offsets.getLast? with
  | some last_idx, some num_rows =>
    if last_idx ≥ num_rows then
      .error (.outOfBounds "index out of bounds")
    else .ok (sortByIdx (findChunksLoop row_offsets indices 0 []))
  | _, _ => .ok (sortByIdx (findChunksLoop row_offsets indices 0 []))

/-- Invariant of the find_chunks loop after processing index positions
0..pos: the accumulated entries are sorted by chunk, each entry covers a
nonempty position range on which the chunk assignment is constant, every
processed position is covered, and the most recent entry extends to pos. -/
structure LoopInv (cIdx : Nat → Nat) (pos : Nat) (m : List ChunkIndices) : Prop where
  sorted : List.Pairwise (fun a b => a.chunk_idx < b.chunk_idx) m
  ranges : ∀ ci ∈ m, ci.indices_start < ci.indices_stop ∧ ci.indices_stop ≤ pos ∧
    ∀ p, ci.indices_start ≤ p → p < ci.indices_stop → cIdx p = ci.chunk_idx
  covers : ∀ p, p < pos → ∃ ci, ci ∈ m ∧ ci.indices_start ≤ p ∧ p < ci.indices_stop
  lastStop : ∀ ci, m.getLast? = some ci → ci.indices_stop = pos

/-! ### List helper lemmas -/

theorem getD_zipWith (f : Bool → Bool → Bool) (xs ys : List Bool) (i : Nat)
    (hx : i < xs.length) (hy : i < ys.length) :
    (List.zipWith f xs ys).getD i false = f (xs.getD i false) (ys.getD i false) := by
  induction xs generalizing ys i with
  | nil => simp at hx
  | cons a xs ih =>
    cases ys with
    | nil => simp at hy
    | cons b ys =>
      cases i with
      | zero => simp
      | succ n =>
        simpa using ih ys n (by simpa using hx) (by simpa using hy)

theorem getD_replicate (b d : Bool) (n i : Nat) (h : i < n) :
    (List.replicate n b).getD i d = b := by
  induction n generalizing i with
  | zero => omega
  | succ m ih =>
    rw [List.replicate_succ]
    cases i with
    | zero => simp
    | succ k => simpa using ih k (by omega)

theorem getD_of_all_true {xs : List Bool} (h : xs.all (fun b => b) = true)
    {i : Nat} (hi : i < xs.length) : xs.getD i false = true := by
  induction xs generalizing i with
  | nil => simp at hi
  | cons a xs ih =>
    simp only [List.all_cons, Bool.and_eq_true] at h
    cases i with
    | zero => simpa using h.1
    | succ k => simpa using ih h.2 (by simpa using hi)

theorem getD_of_any_false {xs : List Bool} (h : xs.any (fun b => b) = false)
    {i : Nat} (hi : i < xs.length) : xs.getD i false = false := by
  induction xs generalizing i with
  | nil => simp at hi
  | cons a xs ih =>
    simp only [List.any_cons, Bool.or_eq_false_iff] at h
    cases i with
    | zero => simpa using h.1
    | succ k => simpa using ih h.2 (by simpa using hi)

theorem getD_map_nat (f : Nat → Int) (l : List Nat) (j : Nat) (hj : j < l.length) :
    (l.map f).getD j 0 = f (l.getD j 0) := by
  induction l generalizing j with
  | nil => simp at hj
  | cons a l ih =>
    cases j with
    | zero => simp
    | succ k => simpa using ih k (by simpa using hj)

theorem getElem?_eq_some_getD {α : Type} (xs : List α) (d : α) (i : Nat)
    (h : i < xs.length) : xs[i]? = some (xs.getD i d) := by
  induction xs generalizing i with
  | nil => simp at h
  | cons a l ih =>
    cases i with
    | zero => simp
    | succ k => simpa using ih k (by simpa using h)

theorem getElem?_eq_none_of_le {α : Type} (xs : List α) (i : Nat)
    (h : xs.length ≤ i) : xs[i]? = none := by
  induction xs generalizing i with
  | nil => simp
  | cons a l ih =>
    cases i with
    | zero => simp at h
    | succ k => simpa using ih k (by simpa using h)

theorem gatherOpt_eq_of_forall_lt {α : Type} (xs : List α) (d : α) :
    ∀ (indices : List Nat), (∀ i ∈ indices, i < xs.length) →
      gatherOpt xs indices = some (indices.map (fun i => xs.getD i d))
  | [], _ => rfl
  | i :: is, h => by
    have hi : i < xs.length := h i (by simp)
    have hrec := gatherOpt_eq_of_forall_lt xs d is (fun j hj => h j (by simp [hj]))
    show (match xs.get? i with
      | none => none
      | some v => (gatherOpt xs is).map (fun vs => v :: vs)) = _
    rw [List.get?_eq_getElem?, getElem?_eq_some_getD xs d i hi, hrec]
    rfl

theorem gatherOpt_none_of_oob {α : Type} (xs : List α) :
    ∀ (indices : List Nat) (i : Nat), i ∈ indices → xs.length ≤ i →
      gatherOpt xs indices = none
  | [], i, hi, _ => by simp at hi
  | j :: js, i, hi, hlen => by
    rcases List.mem_cons.mp hi with rfl | hmem
    · simp [gatherOpt, getElem?_eq_none_of_le xs i hlen]
    · cases hj : xs[j]? with
      | none => simp [gatherOpt, hj]
      | some v =>
        simp [gatherOpt, hj, gatherOpt_none_of_oob xs js i hmem hlen]

/-! ### Sorted-list access lemmas for find_chunks -/

theorem getD_eq_getElem_of_lt {α : Type} (xs : List α) (d : α) (i : Nat)
    (h : i < xs.length) : xs.getD i d = xs[i] := by
  rw [List.getD_eq_getElem?_getD, List.getElem?_eq_getElem h]
  rfl

theorem sorted_getD_lt (xs : List Nat) (hs : List.Pairwise (· < ·) xs)
    {i j : Nat} (hij : i < j) (hj : j < xs.length) :
    xs.getD i 0 < xs.getD j 0 := by
  have hi : i < xs.length := lt_trans hij hj
  rw [getD_eq_getElem_of_lt xs 0 i hi, getD_eq_getElem_of_lt xs 0 j hj]
  exact List.pairwise_iff_getElem.mp hs i j hi hj hij

theorem sorted_getD_le (xs : List Nat) (hs : List.Pairwise (· < ·) xs)
    {i j : Nat} (hij : i ≤ j) (hj : j < xs.length) :
    xs.getD i 0 ≤ xs.getD j 0 := by
  rcases Nat.lt_or_ge i j with h | h
  · exact le_of_lt (sorted_getD_lt xs hs h hj)
  · have he : i = j := by omega
    rw [he]

theorem getLast?_eq_some_getD (xs : List Nat) (h : xs ≠ []) :
    xs.getLast? = some (xs.getD (xs.length - 1) 0) := by
  have hlen : 0 < xs.length := List.length_pos.mpr h
  rw [List.getLast?_eq_getElem?, getElem?_eq_some_getD xs 0 (xs.length - 1) (by omega)]

/-! ### Binary search characterization -/

theorem binSearchLoop_spec (xs : List Nat) (v : Nat)
    (hs : List.Pairwise (· < ·) xs) :
    ∀ (fuel left right : Nat), left ≤ right → right ≤ xs.length →
      right - left ≤ fuel →
      (∀ i, i < left → xs.getD i 0 < v) →
      (∀ i, right ≤ i → i < xs.length → v < xs.getD i 0) →
      (match binSearchLoop xs v fuel left right with
       | .ok k => k < xs.length ∧ xs.getD k 0 = v
       | .error x => x ≤ xs.length ∧ (∀ i, i < x → xs.getD i 0 < v) ∧
           (∀ i, x ≤ i → i < xs.length → v < xs.getD i 0)) := by
  intro fuel
  induction fuel with
  | zero =>
    intro left right hlr hrlen hfuel hlow hhigh
    simp only [binSearchLoop]
    exact ⟨by omega, hlow, fun i hxi hilen => hhigh i (by omega) hilen⟩
  | succ n ih =>
    intro left right hlr hrlen hfuel hlow hhigh
    simp only [binSearchLoop]
    by_cases hcase : left < right
    · rw [if_pos hcase]
      have hdiv : (right - left) / 2 < right - left := Nat.div_lt_self (by omega) (by omega)
      by_cases hxv : xs.getD (left + (right - left) / 2) 0 < v
      · rw [if_pos hxv]
        refine ih (left + (right - left) / 2 + 1) right (by omega) hrlen (by omega)
          ?_ hhigh
        intro i hi
        exact lt_of_le_of_lt (sorted_getD_le xs hs (by omega) (by omega)) hxv
      · rw [if_neg hxv]
        by_cases hvx : v < xs.getD (left + (right - left) / 2) 0
        · rw [if_pos hvx]
          refine ih left (left + (right - left) / 2) (by omega) (by omega) (by omega)
            hlow ?_
          intro i hmi hilen
          exact lt_of_lt_of_le hvx (sorted_getD_le xs hs hmi hilen)
        · rw [if_neg hvx]
          exact ⟨by omega, by omega⟩
    · rw [if_neg hcase]
      exact ⟨by omega, hlow, fun i hxi hilen => hhigh i (by omega) hilen⟩

theorem chunkIdxOf_spec (ro : List Nat) (hs : List.Pairwise (· < ·) ro)
    (hne : ro ≠ []) (h0 : ro.getD 0 0 = 0) (v : Nat)
    (hv : v < ro.getD (ro.length - 1) 0) :
    chunkIdxOf ro v + 1 < ro.length ∧
    ro.getD (chunkIdxOf ro v) 0 ≤ v ∧ v < ro.getD (chunkIdxOf ro v + 1) 0 := by
  have hlen : 0 < ro.length := List.length_pos.mpr hne
  have hspec := binSearchLoop_spec ro v hs ro.length 0 ro.length (by omega) le_rfl
    (by omega) (fun i hi => absurd hi (by omega)) (fun i h1 h2 => absurd h1 (by omega))
  rcases hres : binSearchLoop ro v ro.length 0 ro.length with x | k
  · rw [hres] at hspec
    simp only at hspec
    obtain ⟨hx, hlow, hhigh⟩ := hspec
    have hx1 : 1 ≤ x := by
      by_contra hc
      have := hhigh 0 (by omega) hlen
      omega
    have hxlt : x < ro.length := by
      rcases Nat.lt_or_ge x ro.length with h | h
      · exact h
      · have hxe : x = ro.length := by omega
        have := hlow (ro.length - 1) (by omega)
        omega
    have hc : chunkIdxOf ro v = x - 1 := by
      simp only [chunkIdxOf, rustBinarySearch, hres]
    rw [hc]
    refine ⟨by omega, le_of_lt (hlow (x - 1) (by omega)), ?_⟩
    have hxe : x - 1 + 1 = x := by omega
    rw [hxe]
    exact hhigh x le_rfl hxlt
  · rw [hres] at hspec
    simp only at hspec
    obtain ⟨hk, hkv⟩ := hspec
    have hc : chunkIdxOf ro v = k := by
      simp only [chunkIdxOf, rustBinarySearch, hres]
    rw [hc]
    have hkne : k ≠ ro.length - 1 := by
      intro he
      rw [he] at hkv
      omega
    refine ⟨by omega, le_of_eq hkv, ?_⟩
    rw [← hkv]
    exact sorted_getD_lt ro hs (Nat.lt_succ_self k) (by omega)

theorem chunkIdxOf_mono (ro : List Nat) (hs : List.Pairwise (· < ·) ro)
    (hne : ro ≠ []) (h0 : ro.getD 0 0 = 0) (v w : Nat)
    (hv : v < ro.getD (ro.length - 1) 0) (hw : w < ro.getD (ro.length - 1) 0)
    (hvw : v ≤ w) : chunkIdxOf ro v ≤ chunkIdxOf ro w := by
  by_contra hlt
  obtain ⟨hv1, hv2, hv3⟩ := chunkIdxOf_spec ro hs hne h0 v hv
  obtain ⟨hw1, hw2, hw3⟩ := chunkIdxOf_spec ro hs hne h0 w hw
  have : ro.getD (chunkIdxOf ro w + 1) 0 ≤ ro.getD (chunkIdxOf ro v) 0 :=
    sorted_getD_le ro hs (by omega) (by omega)
  omega

/-! ### HashMap-entry and sorting lemmas for find_chunks -/

theorem updateEntry_of_not_mem (m : List ChunkIndices) (c pos : Nat)
    (h : ∀ ci ∈ m, ci.chunk_idx ≠ c) :
    updateEntry m c pos = m ++ [⟨c, pos, pos + 1⟩] := by
  have hany : m.any (fun ci => ci.chunk_idx == c) = false :=
    List.any_eq_false.mpr (fun ci hci => by simp [h ci hci])
  simp [updateEntry, hany]

theorem updateEntry_concat_last (ms : List ChunkIndices) (lastCi : ChunkIndices)
    (pos : Nat) (hms : ∀ ci ∈ ms, ci.chunk_idx ≠ lastCi.chunk_idx) :
    updateEntry (ms ++ [lastCi]) lastCi.chunk_idx pos =
      ms ++ [⟨lastCi.chunk_idx, lastCi.indices_start, pos + 1⟩] := by
  have hany : (ms ++ [lastCi]).any (fun ci => ci.chunk_idx == lastCi.chunk_idx) = true := by
    simp [List.any_append]
  simp only [updateEntry, hany, if_true, List.map_append]
  congr 1
  · have hmap : ms.map (fun ci =>
        if ci.chunk_idx == lastCi.chunk_idx then
          (⟨ci.chunk_idx, ci.indices_start, pos + 1⟩ : ChunkIndices)
        else ci) = ms.map id :=
      List.map_congr_left (fun ci hci => by simp [hms ci hci])
    rw [hmap, List.map_id]
  · simp

theorem insertByIdx_of_forall_le (ci : ChunkIndices) (xs : List ChunkIndices)
    (h : ∀ x ∈ xs, ci.chunk_idx ≤ x.chunk_idx) : insertByIdx ci xs = ci :: xs := by
  cases xs with
  | nil => rfl
  | cons x xs => simp [insertByIdx, h x (by simp)]

theorem sortByIdx_eq_self (xs : List ChunkIndices)
    (h : List.Pairwise (fun a b => a.chunk_idx < b.chunk_idx) xs) :
    sortByIdx xs = xs := by
  induction xs with
  | nil => rfl
  | cons x xs ih =>
    obtain ⟨hhead, htail⟩ := List.pairwise_cons.mp h
    rw [sortByIdx, ih htail,
      insertByIdx_of_forall_le x xs (fun y hy => le_of_lt (hhead y hy))]

/-! ### The find_chunks loop invariant -/

theorem loopInv_step (cIdx : Nat → Nat) (pos : Nat) (m : List ChunkIndices)
    (inv : LoopInv cIdx pos m) (hm : ∀ p, p < pos → cIdx p ≤ cIdx pos) :
    LoopInv cIdx (pos + 1) (updateEntry m (cIdx pos) pos) := by
  rcases List.eq_nil_or_concat m with rfl | ⟨ms, lastCi, hmeq⟩
  · have hpos : pos = 0 := by
      by_contra hp
      obtain ⟨ci, hci, _⟩ := inv.covers 0 (by omega)
      simp at hci
    subst hpos
    rw [updateEntry_of_not_mem [] (cIdx 0) 0 (by simp)]
    refine ⟨by simp, ?_, ?_, ?_⟩
    · intro ci hci
      simp only [List.nil_append, List.mem_singleton] at hci
      subst hci
      refine ⟨Nat.zero_lt_one, le_rfl, fun p h1 h2 => ?_⟩
      have h2a : p < 1 := h2
      have hp0 : p = 0 := by omega
      rw [hp0]
    · intro p hp
      have hp0 : p = 0 := by omega
      subst hp0
      exact ⟨⟨cIdx 0, 0, 1⟩, by simp, le_rfl, Nat.zero_lt_one⟩
    · intro ci hci
      simp only [List.nil_append, List.getLast?_singleton, Option.some_inj] at hci
      rw [← hci]
  · rw [List.concat_eq_append] at hmeq
    subst hmeq
    have hlastmem : lastCi ∈ ms ++ [lastCi] := by simp
    obtain ⟨hr1, hr2, hr3⟩ := inv.ranges lastCi hlastmem
    have hstop : lastCi.indices_stop = pos := inv.lastStop lastCi (List.getLast?_concat ms)
    have hpos1 : 1 ≤ pos := by omega
    have hlastkey : cIdx (pos - 1) = lastCi.chunk_idx := hr3 (pos - 1) (by omega) (by omega)
    obtain ⟨hsms, _, hcross⟩ := List.pairwise_append.mp inv.sorted
    have hmslt : ∀ a ∈ ms, a.chunk_idx < lastCi.chunk_idx :=
      fun a ha => hcross a ha lastCi (by simp)
    have hle : lastCi.chunk_idx ≤ cIdx pos := by
      rw [← hlastkey]
      exact hm (pos - 1) (by omega)
    by_cases hceq : cIdx pos = lastCi.chunk_idx
    · rw [hceq, updateEntry_concat_last ms lastCi pos
        (fun ci hci => Nat.ne_of_lt (hmslt ci hci))]
      refine ⟨?_, ?_, ?_, ?_⟩
      · refine List.pairwise_append.mpr ⟨hsms, by simp, ?_⟩
        intro a ha b hb
        simp only [List.mem_singleton] at hb
        subst hb
        exact hmslt a ha
      · intro ci hci
        rcases List.mem_append.mp hci with hin | hin
        · obtain ⟨s1, s2, s3⟩ := inv.ranges ci (List.mem_append_left _ hin)
          exact ⟨s1, by omega, s3⟩
        · simp only [List.mem_singleton] at hin
          subst hin
          refine ⟨show lastCi.indices_start < pos + 1 by omega, le_rfl,
            fun p h1 h2 => ?_⟩
          have h1a : lastCi.indices_start ≤ p := h1
          have h2a : p < pos + 1 := h2
          show cIdx p = lastCi.chunk_idx
          rcases Nat.lt_or_ge p pos with hp | hp
          · exact hr3 p h1a (by omega)
          · have hp0 : p = pos := by omega
            rw [hp0, hceq]
      · intro p hp
        rcases Nat.lt_or_ge p pos with hplt | hpge
        · obtain ⟨ci, hci, hc1, hc2⟩ := inv.covers p hplt
          rcases List.mem_append.mp hci with hin | hin
          · exact ⟨ci, List.mem_append_left _ hin, hc1, hc2⟩
          · simp only [List.mem_singleton] at hin
            rw [hin] at hc1 hc2
            exact ⟨⟨lastCi.chunk_idx, lastCi.indices_start, pos + 1⟩, by simp,
              hc1, show p < pos + 1 by omega⟩
        · have hp0 : p = pos := by omega
          exact ⟨⟨lastCi.chunk_idx, lastCi.indices_start, pos + 1⟩, by simp,
            show lastCi.indices_start ≤ p by omega,
            show p < pos + 1 by omega⟩
      · intro ci hci
        rw [List.getLast?_concat] at hci
        rw [← Option.some_inj.mp hci]
    · have hlt : lastCi.chunk_idx < cIdx pos := by omega
      have hall : ∀ ci ∈ ms ++ [lastCi], ci.chunk_idx ≠ cIdx pos := by
        intro ci hci
        rcases List.mem_append.mp hci with hin | hin
        · exact Nat.ne_of_lt (lt_trans (hmslt ci hin) hlt)
        · simp only [List.mem_singleton] at hin
          subst hin
          exact Nat.ne_of_lt hlt
      rw [updateEntry_of_not_mem _ _ _ hall]
      refine ⟨?_, ?_, ?_, ?_⟩
      · refine List.pairwise_append.mpr ⟨inv.sorted, by simp, ?_⟩
        intro a ha b hb
        simp only [List.mem_singleton] at hb
        subst hb
        rcases List.mem_append.mp ha with hin | hin
        · exact lt_trans (hmslt a hin) hlt
        · simp only [List.mem_singleton] at hin
          subst hin
          exact hlt
      · intro ci hci
        rcases List.mem_append.mp hci with hin | hin
        · obtain ⟨s1, s2, s3⟩ := inv.ranges ci hin
          exact ⟨s1, by omega, s3⟩
        · simp only [List.mem_singleton] at hin
          subst hin
          refine ⟨show pos < pos + 1 by omega, le_rfl, fun p h1 h2 => ?_⟩
          have h1a : pos ≤ p := h1
          have h2a : p < pos + 1 := h2
          show cIdx p = cIdx pos
          have hp0 : p = pos := by omega
          rw [hp0]
      · intro p hp
        rcases Nat.lt_or_ge p pos with hplt | hpge
        · obtain ⟨ci, hci, hc1, hc2⟩ := inv.covers p hplt
          exact ⟨ci, List.mem_append_left _ hci, hc1, hc2⟩
        · have hp0 : p = pos := by omega
          exact ⟨⟨cIdx pos, pos, pos + 1⟩, by simp,
            show pos ≤ p by omega, show p < pos + 1 by omega⟩
      · intro ci hci
        rw [List.getLast?_concat] at hci
        rw [← Option.some_inj.mp hci]

theorem findChunksLoop_inv (ro idx : List Nat)
    (hmono : ∀ p q, p ≤ q → q < idx.length →
      chunkIdxOf ro (idx.getD p 0) ≤ chunkIdxOf ro (idx.getD q 0)) :
    ∀ (rest : List Nat) (pos : Nat) (m : List ChunkIndices),
      idx.drop pos = rest → pos ≤ idx.length →
      LoopInv (fun p => chunkIdxOf ro (idx.getD p 0)) pos m →
      LoopInv (fun p => chunkIdxOf ro (idx.getD p 0)) idx.length
        (findChunksLoop ro rest pos m) := by
  intro rest
  induction rest with
  | nil =>
    intro pos m hdrop hple inv
    have hge : idx.length ≤ pos := List.drop_eq_nil_iff.mp hdrop
    have hpose : pos = idx.length := by omega
    subst hpose
    simpa [findChunksLoop] using inv
  | cons v rest ih =>
    intro pos m hdrop hple inv
    have hpos : pos < idx.length := by
      by_contra hnp
      rw [List.drop_eq_nil_iff.mpr (by omega)] at hdrop
      cases hdrop
    rw [List.drop_eq_getElem_cons hpos] at hdrop
    injection hdrop with hv hrest
    have hgv : idx.getD pos 0 = v := by
      rw [getD_eq_getElem_of_lt idx 0 pos hpos, hv]
    simp only [findChunksLoop]
    rw [← hgv]
    exact ih (pos + 1) _ hrest (by omega)
      (loopInv_step _ pos m inv (fun p hp => hmono p pos (by omega) hpos))

/-- C4: for strictly increasing row offsets starting at 0 and strict-sorted
in-range indices, find_chunks succeeds and returns a ChunkIndices list sorted
strictly ascending by chunk_idx, whose entries carry nonempty contiguous
index-position ranges on which the chunk assignment is constant, which
together cover every index position; and each index value v lies in the
half-open row range of its assigned chunk,
row_offsets[c] <= v < row_offsets[c+1]. -/
theorem find_chunks_spec (ro idx : List Nat)
    (hro : List.Pairwise (· < ·) ro) (hne : ro ≠ [])
    (h0 : ro.getD 0 0 = 0)
    (hidx : List.Pairwise (· < ·) idx)
    (hlast : ∀ l, idx.getLast? = some l → l < ro.getD (ro.length - 1) 0) :
    ∃ out, find_chunks ro idx = .ok out ∧
      List.Pairwise (fun x y => x.chunk_idx < y.chunk_idx) out ∧
      (∀ ci ∈ out, ci.indices_start < ci.indices_stop ∧ ci.indices_stop ≤ idx.length ∧
        ∀ p, ci.indices_start ≤ p → p < ci.indices_stop →
          chunkIdxOf ro (idx.getD p 0) = ci.chunk_idx) ∧
      (∀ p, p < idx.length →
        ∃ ci, ci ∈ out ∧ ci.indices_start ≤ p ∧ p < ci.indices_stop) ∧
      (∀ p, p < idx.length →
        ro.getD (chunkIdxOf ro (idx.getD p 0)) 0 ≤ idx.getD p 0 ∧
        idx.getD p 0 < ro.getD (chunkIdxOf ro (idx.getD p 0) + 1) 0 ∧
        chunkIdxOf ro (idx.getD p 0) + 1 < ro.length) := by
  have hrolast := getLast?_eq_some_getD ro hne
  have hbound : ∀ p, p < idx.length → idx.getD p 0 < ro.getD (ro.length - 1) 0 := by
    intro p hp
    have hne2 : idx ≠ [] := by
      intro he
      rw [he] at hp
      simp at hp
    have hl := hlast _ (getLast?_eq_some_getD idx hne2)
    exact lt_of_le_of_lt (sorted_getD_le idx hidx (by omega) (by omega)) hl
  have hmono : ∀ p q, p ≤ q → q < idx.length →
      chunkIdxOf ro (idx.getD p 0) ≤ chunkIdxOf ro (idx.getD q 0) := by
    intro p q hpq hq
    exact chunkIdxOf_mono ro hro hne h0 _ _ (hbound p (by omega)) (hbound q hq)
      (sorted_getD_le idx hidx hpq hq)
  have inv0 : LoopInv (fun p => chunkIdxOf ro (idx.getD p 0)) 0 [] :=
    ⟨List.Pairwise.nil, by simp, fun p hp => absurd hp (by omega), by simp⟩
  have hinv := findChunksLoop_inv ro idx hmono idx 0 [] rfl (by omega) inv0
  have hsort : sortByIdx (findChunksLoop ro idx 0 []) = findChunksLoop ro idx 0 [] :=
    sortByIdx_eq_self _ hinv.sorted
  have hok : find_chunks ro idx = .ok (findChunksLoop ro idx 0 []) := by
    rcases hl : idx.getLast? with _ | l
    · simp [find_chunks, hl, hrolast, hsort]
    · have hlt := hlast l hl
      have hlt2 : l < ro[ro.length - 1]?.getD 0 := by
        rw [← List.getD_eq_getElem?_getD]
        exact hlt
      simp [find_chunks, hl, hrolast, hsort, hlt2]
  refine ⟨findChunksLoop ro idx 0 [], hok, hinv.sorted, hinv.ranges, hinv.covers, ?_⟩
  intro p hp
  obtain ⟨h1, h2, h3⟩ := chunkIdxOf_spec ro hro hne h0 _ (hbound p hp)
  exact ⟨h2, h3, h1⟩

/-- C4 witness: row offsets [0,5,10] and indices [0,4,5,9]; positions 0 and 1
fall in chunk 0, positions 2 and 3 in chunk 1. -/
theorem find_chunks_spec_witness :
    ∃ out, find_chunks [0, 5, 10] [0, 4, 5, 9] = .ok out ∧
      List.Pairwise (fun x y => x.chunk_idx < y.chunk_idx) out ∧
      (∀ ci ∈ out, ci.indices_start < ci.indices_stop ∧
        ci.indices_stop ≤ ([0, 4, 5, 9] : List Nat).length ∧
        ∀ p, ci.indices_start ≤ p → p < ci.indices_stop →
          chunkIdxOf [0, 5, 10] (([0, 4, 5, 9] : List Nat).getD p 0) = ci.chunk_idx) ∧
      (∀ p, p < ([0, 4, 5, 9] : List Nat).length →
        ∃ ci, ci ∈ out ∧ ci.indices_start ≤ p ∧ p < ci.indices_stop) ∧
      (∀ p, p < ([0, 4, 5, 9] : List Nat).length →
        ([0, 5, 10] : List Nat).getD
            (chunkIdxOf [0, 5, 10] (([0, 4, 5, 9] : List Nat).getD p 0)) 0 ≤
          ([0, 4, 5, 9] : List Nat).getD p 0 ∧
        ([0, 4, 5, 9] : List Nat).getD p 0 <
          ([0, 5, 10] : List Nat).getD
            (chunkIdxOf [0, 5, 10] (([0, 4, 5, 9] : List Nat).getD p 0) + 1) 0 ∧
        chunkIdxOf [0, 5, 10] (([0, 4, 5, 9] : List Nat).getD p 0) + 1 <
          ([0, 5, 10] : List Nat).length) :=
  find_chunks_spec [0, 5, 10] [0, 4, 5, 9] (by decide) (by decide) rfl (by decide)
    (fun l hl => by
      have hs : some l = some 9 := by rw [← hl]; rfl
      injection hs with he
      rw [he]
      decide)

/-! ### C2: nullability of Struct dtypes -/

theorem allNullable_iff (fields : List DType) :
    allNullable fields = true ↔ ∀ d ∈ fields, d.is_nullable = true := by
  induction fields with
  | nil => simp [allNullable]
  | cons d ds ih => simp [allNullable, Bool.and_eq_true, ih]

/-- C2 counterexample: a Struct whose container flag is Nullable but whose
single field is non-nullable. The claim says is_nullable must report true
(container is marked nullable); the code reports false because
DType::is_nullable ignores the container flag for Struct and only checks the
fields. -/
theorem struct_nullable_ignores_container_counterexample :
    (DType.struct ["a"] [DType.bool .nonNullable] .nullable).is_nullable = false ∧
    (DType.struct ["a"] [DType.bool .nonNullable] .nullable).nullability = .nonNullable := by
  constructor
  · rfl
  · rfl

/-- C2 (amended): a Struct dtype is nullable exactly when all of its field
dtypes are nullable; the container's own nullability flag is ignored by
DType::is_nullable (and hence by nullability). -/
theorem struct_is_nullable_iff_all_fields_nullable (names : List String)
    (fields : List DType) (n : Nullability) :
    ((DType.struct names fields n).is_nullable = true ↔
      ∀ d ∈ fields, d.is_nullable = true) ∧
    ((DType.struct names fields n).nullability = .nullable ↔
      ∀ d ∈ fields, d.is_nullable = true) := by
  have h1 : (DType.struct names fields n).is_nullable = allNullable fields := by
    simp [DType.is_nullable]
  constructor
  · rw [h1]; exact allNullable_iff fields
  · rw [DType.nullability, h1]
    rcases h : allNullable fields with _ | _
    · simp [h, (allNullable_iff fields).symm]
    · simp [h, (allNullable_iff fields).symm]

/-- C2 witness: a Struct with a non-nullable container flag and one nullable
field is reported nullable by the code. -/
theorem struct_is_nullable_iff_all_fields_nullable_witness :
    (DType.struct ["a"] [DType.bool .nullable] .nonNullable).is_nullable = true :=
  (struct_is_nullable_iff_all_fields_nullable ["a"] [DType.bool .nullable] .nonNullable).1.mpr
    (by decide)

/-! ### C8, C9, C10: Validity construction and equality -/

/-- C8: constructing Validity from a boolean vector yields AllValid when all
entries are true, AllInvalid when no entry of a nonempty vector is true, and
otherwise the materialized Array over exactly the input bits. For the empty
vector the all-true clause applies first and yields AllValid (claim C10). -/
theorem validity_from_bools_spec (bools : List Bool) :
    ((∀ b ∈ bools, b = true) → Validity.fromBools bools = .allValid) ∧
    ((bools ≠ [] ∧ ∀ b ∈ bools, b = false) → Validity.fromBools bools = .allInvalid) ∧
    (((∃ b ∈ bools, b = true) ∧ (∃ b ∈ bools, b = false)) →
      Validity.fromBools bools = .array bools) := by
  refine ⟨fun h => ?_, fun h => ?_, fun h => ?_⟩
  · have hall : bools.all (fun b => b) = true := List.all_eq_true.mpr (by simpa using h)
    simp [Validity.fromBools, hall]
  · obtain ⟨hne, h⟩ := h
    have hall : bools.all (fun b => b) = false := by
      rcases bools with _ | ⟨b, bs⟩
      · exact absurd rfl hne
      · have hb : b = false := h b (by simp)
        simp [List.all_cons, hb]
    have hany : bools.any (fun b => b) = false := by
      rw [Bool.eq_false_iff]
      intro hc
      obtain ⟨x, hx, hxt⟩ := List.any_eq_true.mp hc
      have := h x hx
      simp [this] at hxt
    simp [Validity.fromBools, hall, hany]
  · obtain ⟨⟨t, ht, htt⟩, ⟨f, hf, hff⟩⟩ := h
    have hall : bools.all (fun b => b) = false := by
      rw [Bool.eq_false_iff]
      intro hc
      have := List.all_eq_true.mp hc f hf
      simp [hff] at this
    have hany : bools.any (fun b => b) = true :=
      List.any_eq_true.mpr ⟨t, ht, by simp [htt]⟩
    simp [Validity.fromBools, hall, hany]

/-- C8 witness: the three construction shapes at concrete inputs. -/
theorem validity_from_bools_spec_witness :
    Validity.fromBools [true, true] = .allValid ∧
    Validity.fromBools [false, false] = .allInvalid ∧
    Validity.fromBools [true, false] = .array [true, false] :=
  ⟨(validity_from_bools_spec [true, true]).1 (by decide),
   (validity_from_bools_spec [false, false]).2.1 (by decide),
   (validity_from_bools_spec [true, false]).2.2 (by decide)⟩

/-- C9: Validity equality never holds across variants — AllValid is not equal
to an Array of all-true bits and AllInvalid is not equal to an Array of
all-false bits, at any length — while two Array variants are compared by
their flattened bit vectors. -/
theorem validity_eq_within_variant_only :
    (∀ n : Nat, Validity.beq .allValid (.array (List.replicate n true)) = false) ∧
    (∀ n : Nat, Validity.beq (.array (List.replicate n true)) .allValid = false) ∧
    (∀ n : Nat, Validity.beq .allInvalid (.array (List.replicate n false)) = false) ∧
    (∀ n : Nat, Validity.beq (.array (List.replicate n false)) .allInvalid = false) ∧
    (∀ a b : List Bool, (Validity.beq (.array a) (.array b) = true ↔ a = b)) := by
  refine ⟨fun n => rfl, fun n => rfl, fun n => rfl, fun n => rfl, fun a b => ?_⟩
  simp [Validity.beq]

/-- C9 witness: cross-variant inequality and Array bit-vector comparison at
concrete inputs. -/
theorem validity_eq_within_variant_only_witness :
    Validity.beq .allValid (.array (List.replicate 3 true)) = false ∧
    (Validity.beq (.array [true, false]) (.array [true, false]) = true ↔
      [true, false] = [true, false]) :=
  ⟨validity_eq_within_variant_only.1 3,
   validity_eq_within_variant_only.2.2.2.2 [true, false] [true, false]⟩

/-- C10: constructing Validity from an empty boolean vector and from an empty
sequence of LogicalValidity both yield AllValid. -/
theorem validity_from_empty_all_valid :
    Validity.fromBools [] = .allValid ∧ Validity.fromLogicalIter [] = .allValid := by
  constructor
  · rfl
  · rfl

/-! ### C5, C6: primitive take -/

/-- C5: for in-bounds integer indices, take on a primitive array succeeds and
returns an array of length indices.len() whose element at position j is
a[indices[j]]. -/
theorem take_primitive_in_bounds_spec (a : PrimitiveArrayM) (indices : List Nat)
    (hidx : ∀ i ∈ indices, i < a.values.length)
    (hv : a.validity.lengthMatches a.values.length) :
    ∃ r, takeFnPrimitive a indices = some r ∧
      r.values.length = indices.length ∧
      ∀ j, j < indices.length →
        r.values.getD j 0 = a.values.getD (indices.getD j 0) 0 := by
  have hvals := gatherOpt_eq_of_forall_lt a.values 0 indices hidx
  have hvd : ∃ vd, a.validity.takeV indices = some vd := by
    cases hval : a.validity with
    | nonNullable => exact ⟨.nonNullable, rfl⟩
    | allValid => exact ⟨.allValid, rfl⟩
    | allInvalid => exact ⟨.allInvalid, rfl⟩
    | array bits =>
      have hlen : bits.length = a.values.length := by
        simpa [Validity.lengthMatches, hval] using hv
      have := gatherOpt_eq_of_forall_lt bits false indices (fun i hi => hlen ▸ hidx i hi)
      exact ⟨.array (indices.map (fun i => bits.getD i false)), by
        simp [Validity.takeV, this]⟩
  obtain ⟨vd, hvdeq⟩ := hvd
  refine ⟨⟨indices.map (fun i => a.values.getD i 0), vd⟩, ?_, by simp, ?_⟩
  · simp [takeFnPrimitive, take_primitive, hvals, hvdeq]
  · intro j hj
    simpa using getD_map_nat (fun i => a.values.getD i 0) indices j hj

/-- C5 witness: the S3 scenario, a = [1,2,3,4,5], idx = [0,0,4,2]. -/
theorem take_primitive_in_bounds_spec_witness :
    ∃ r, takeFnPrimitive ⟨[1, 2, 3, 4, 5], .nonNullable⟩ [0, 0, 4, 2] = some r ∧
      r.values.length = ([0, 0, 4, 2] : List Nat).length ∧
      ∀ j, j < ([0, 0, 4, 2] : List Nat).length →
        r.values.getD j 0 =
          (([1, 2, 3, 4, 5] : List Int)).getD (([0, 0, 4, 2] : List Nat).getD j 0) 0 :=
  take_primitive_in_bounds_spec ⟨[1, 2, 3, 4, 5], .nonNullable⟩ [0, 0, 4, 2]
    (by decide) trivial

/-- C6 counterexample: the claim says an out-of-range index makes take fail
with an OutOfBounds error and not panic; in the code take_primitive indexes
the data slice directly, so the call panics (modelled as none) instead of
returning any error value. -/
theorem take_out_of_bounds_counterexample :
    takeFnPrimitive ⟨[1], .nonNullable⟩ [1] = none := by
  rfl

/-- C6 (amended): when some index lies outside the array bounds, take on a
primitive array panics (slice index out of bounds) rather than returning an
OutOfBounds error. -/
theorem take_out_of_bounds_panics (a : PrimitiveArrayM) (indices : List Nat)
    (h : ∃ i ∈ indices, a.values.length ≤ i) :
    takeFnPrimitive a indices = none := by
  obtain ⟨i, hmem, hge⟩ := h
  have := gatherOpt_none_of_oob a.values indices i hmem hge
  simp [takeFnPrimitive, take_primitive, this]

/-- C6 witness: index 2 into a length-2 array panics. -/
theorem take_out_of_bounds_panics_witness :
    takeFnPrimitive ⟨[1, 2], .allValid⟩ [0, 2] = none :=
  take_out_of_bounds_panics ⟨[1, 2], .allValid⟩ [0, 2] ⟨2, by decide⟩

/-! ### C7: cast null check -/

/-- C7 counterexample: the claim quantifies over every array, but the cast
dispatcher (compute/cast.rs lines 16-19) returns NotImplemented when the
array's encoding registers no CastFn. The datetime-parts encoding
(vortex-datetime-parts compute.rs lines 9-17) registers only slice and take,
so a null-containing datetime-parts array cast to a differing non-nullable
dtype fails NotImplemented, not NullsInNonNullable. -/
theorem cast_without_capability_counterexample :
    cast ⟨DType.ext "vortex.datetimeparts" .nullable, 1⟩
        (DType.ext "vortex.datetimeparts" .nonNullable) false =
      .error (.notImplemented "cast" "encoding") ∧
    VErr.notImplemented "cast" "encoding" ≠ VErr.nullsInNonNullable := by
  constructor
  · rfl
  · intro h
    cases h

/-- C7 (amended): casting an array that contains nulls to a differing
non-nullable dtype fails with NullsInNonNullable when the array's encoding
implements the cast capability (the per-encoding CastFn is modelled from the
spec); when the encoding registers no CastFn the dispatcher fails with
NotImplemented instead. -/
theorem cast_nulls_in_non_nullable (a : CastArrayM) (target : DType)
    (hnull : 0 < a.null_count) (htarget : target.is_nullable = false)
    (hne : a.dtype ≠ target) :
    cast a target true = .error .nullsInNonNullable ∧
    cast a target false = .error (.notImplemented "cast" "encoding") := by
  constructor
  · simp [cast, hne, castFn, htarget, hnull]
  · simp [cast, hne]

/-- C7 witness: a nullable bool array with one null cast to non-nullable
bool, on an encoding with the cast capability and on one without. -/
theorem cast_nulls_in_non_nullable_witness :
    cast ⟨DType.bool .nullable, 1⟩ (DType.bool .nonNullable) true =
      .error .nullsInNonNullable ∧
    cast ⟨DType.bool .nullable, 1⟩ (DType.bool .nonNullable) false =
      .error (.notImplemented "cast" "encoding") :=
  cast_nulls_in_non_nullable ⟨DType.bool .nullable, 1⟩ (DType.bool .nonNullable)
    (by decide) (by decide) (by decide)

/-! ### C3: take_rows on indices not proven strict-sorted -/

/-- C3 counterexample: with the is_strict_sorted statistic unknown, take_rows
neither returns a NotImplemented error nor reaches any sorting code: it hits
the unimplemented! macro and panics, which the claim rules out ("does not
fail in any other way"). -/
theorem take_rows_unsorted_counterexample :
    takeRowsModel none (Outcome.ok (0 : Nat)) = .panicked ∧
    (Outcome.panicked : Outcome Nat) ≠ .err (.notImplemented "take_rows" "chunked") ∧
    (Outcome.panicked : Outcome Nat) ≠ .ok 0 := by
  refine ⟨rfl, ?_, ?_⟩
  · intro h; cases h
  · intro h; cases h

/-- C3 (amended): whenever the is_strict_sorted statistic does not compute to
true, take_rows panics via unimplemented! — it does not sort the indices and
it does not return a NotImplemented error. -/
theorem take_rows_unsorted_panics {α : Type} (stat : Option Bool)
    (sortedPath : Outcome α) (h : stat.getD false = false) :
    takeRowsModel stat sortedPath = .panicked := by
  simp [takeRowsModel, h]

/-- C3 witness: statistic absent, sorted path irrelevant. -/
theorem take_rows_unsorted_panics_witness :
    takeRowsModel (some false) (Outcome.ok (7 : Nat)) = .panicked :=
  take_rows_unsorted_panics (some false) (Outcome.ok 7) rfl

/-! ### C1: bool compare -/

/-- C1 counterexample: compare of two single-element bool arrays where the
left element is valid and the right element is invalid. The claim says bit 0
must be unset (both sides must be valid); the code sets it, because the
compare kernel ANDs only the left-hand array's validity into the result. -/
theorem compare_requires_both_validities_counterexample :
    (compareBool ⟨[true], .allValid⟩ ⟨[true], .allInvalid⟩ .equalTo).bits = [true] ∧
    (applyOp .equalTo true true
      && Validity.isValidAt .allValid 0
      && Validity.isValidAt .allInvalid 0) = false := by
  constructor
  · rfl
  · rfl

/-- C1 (amended): for equal-length bool arrays (with a well-formed left
validity mask), compare returns a non-nullable bool array of the same length
whose bit i is set iff a[i] op b[i] holds AND a[i] is valid under a's
validity mask; the right-hand array's validity is ignored. -/
theorem compareBool_bits_of_none (abits bbits : List Bool) (av bv : Validity)
    (op : Operator) (h : (av.to_logical abits.length).to_null_buffer = none) :
    (compareBool ⟨abits, av⟩ ⟨bbits, bv⟩ op).bits =
      List.zipWith (applyOp op) abits bbits := by
  simp only [compareBool, h]

theorem compareBool_bits_of_some (abits bbits nulls : List Bool) (av bv : Validity)
    (op : Operator) (h : (av.to_logical abits.length).to_null_buffer = some nulls) :
    (compareBool ⟨abits, av⟩ ⟨bbits, bv⟩ op).bits =
      List.zipWith (fun x y => x && y) (List.zipWith (applyOp op) abits bbits) nulls := by
  simp only [compareBool, h]

theorem compare_masks_with_lhs_validity_only (a b : BoolArrayM) (op : Operator)
    (hlen : b.bits.length = a.bits.length)
    (hv : a.validity.lengthMatches a.bits.length) :
    (compareBool a b op).validity = .nonNullable ∧
    (compareBool a b op).bits.length = a.bits.length ∧
    ∀ i, i < a.bits.length →
      (compareBool a b op).bits.getD i false =
        (applyOp op (a.bits.getD i false) (b.bits.getD i false)
          && a.validity.isValidAt i) := by
  obtain ⟨abits, av⟩ := a
  obtain ⟨bbits, bv⟩ := b
  simp only at hlen hv ⊢
  cases av with
  | nonNullable =>
    have hb := compareBool_bits_of_none abits bbits .nonNullable bv op rfl
    refine ⟨rfl, ?_, ?_⟩
    · rw [hb, List.length_zipWith, hlen, Nat.min_self]
    · intro i hi
      rw [hb, getD_zipWith _ _ _ _ hi (hlen ▸ hi)]
      simp only [Validity.isValidAt]
      rw [Bool.and_true]
  | allValid =>
    have hb := compareBool_bits_of_none abits bbits .allValid bv op rfl
    refine ⟨rfl, ?_, ?_⟩
    · rw [hb, List.length_zipWith, hlen, Nat.min_self]
    · intro i hi
      rw [hb, getD_zipWith _ _ _ _ hi (hlen ▸ hi)]
      simp only [Validity.isValidAt]
      rw [Bool.and_true]
  | allInvalid =>
    have hb := compareBool_bits_of_some abits bbits (List.replicate abits.length false)
      .allInvalid bv op rfl
    have hzlen : (List.zipWith (applyOp op) abits bbits).length = abits.length := by
      rw [List.length_zipWith, hlen, Nat.min_self]
    refine ⟨rfl, ?_, ?_⟩
    · rw [hb, List.length_zipWith, hzlen, List.length_replicate, Nat.min_self]
    · intro i hi
      rw [hb, getD_zipWith _ _ _ _ (hzlen ▸ hi) (by simpa using hi),
        getD_zipWith _ _ _ _ hi (hlen ▸ hi), getD_replicate _ _ _ _ hi]
      simp only [Validity.isValidAt]
  | array bits =>
    have hblen : bits.length = abits.length := by
      simpa [Validity.lengthMatches] using hv
    by_cases h1 : (computeMinBool bits).getD false = true
    · have hbits : bits.all (fun x => x) = true := by
        by_cases hemp : bits.isEmpty
        · simp [computeMinBool, hemp] at h1
        · simpa [computeMinBool, hemp] using h1
      have hnb : ((Validity.array bits).to_logical abits.length).to_null_buffer = none := by
        simp [Validity.to_logical, h1, LogicalValidity.to_null_buffer]
      have hb := compareBool_bits_of_none abits bbits (.array bits) bv op hnb
      refine ⟨rfl, ?_, ?_⟩
      · rw [hb, List.length_zipWith, hlen, Nat.min_self]
      · intro i hi
        rw [hb, getD_zipWith _ _ _ _ hi (hlen ▸ hi)]
        simp only [Validity.isValidAt]
        rw [getD_of_all_true hbits (hblen ▸ hi), Bool.and_true]
    · by_cases h2 : ((computeMaxBool bits).map (fun m => !m)).getD false = true
      · have hbits : bits.any (fun x => x) = false := by
          by_cases hemp : bits.isEmpty
          · simp [computeMaxBool, hemp] at h2
          · simpa [computeMaxBool, hemp] using h2
        have hnb : ((Validity.array bits).to_logical abits.length).to_null_buffer =
            some (List.replicate abits.length false) := by
          simp [Validity.to_logical, h1, h2, LogicalValidity.to_null_buffer]
        have hb := compareBool_bits_of_some abits bbits (List.replicate abits.length false)
          (.array bits) bv op hnb
        have hzlen : (List.zipWith (applyOp op) abits bbits).length = abits.length := by
          rw [List.length_zipWith, hlen, Nat.min_self]
        refine ⟨rfl, ?_, ?_⟩
        · rw [hb, List.length_zipWith, hzlen, List.length_replicate, Nat.min_self]
        · intro i hi
          rw [hb, getD_zipWith _ _ _ _ (hzlen ▸ hi) (by simpa using hi),
            getD_zipWith _ _ _ _ hi (hlen ▸ hi), getD_replicate _ _ _ _ hi]
          simp only [Validity.isValidAt]
          rw [getD_of_any_false hbits (hblen ▸ hi), Bool.and_false]
      · have hnb : ((Validity.array bits).to_logical abits.length).to_null_buffer =
            some bits := by
          simp [Validity.to_logical, h1, h2, LogicalValidity.to_null_buffer]
        have hb := compareBool_bits_of_some abits bbits bits (.array bits) bv op hnb
        have hzlen : (List.zipWith (applyOp op) abits bbits).length = abits.length := by
          rw [List.length_zipWith, hlen, Nat.min_self]
        refine ⟨rfl, ?_, ?_⟩
        · rw [hb, List.length_zipWith, hzlen, hblen, Nat.min_self]
        · intro i hi
          rw [hb, getD_zipWith _ _ _ _ (hzlen ▸ hi) (hblen ▸ hi),
            getD_zipWith _ _ _ _ hi (hlen ▸ hi)]
          simp only [Validity.isValidAt]

/-- C1 witness: the S2 scenario, a = [T,T,F,T,F], b = [F,F,F,T,T], both with
validity [F,T,T,T,T], compared with LessThan; position 4 is the only set
bit, and the formula of the amended claim gives exactly the code's bit. -/
theorem compare_masks_with_lhs_validity_only_witness :
    (compareBool ⟨[true, true, false, true, false], .array [false, true, true, true, true]⟩
        ⟨[false, false, false, true, true], .array [false, true, true, true, true]⟩
        .lessThan).bits.getD 4 false =
      (applyOp .lessThan
        (([true, true, false, true, false] : List Bool).getD 4 false)
        (([false, false, false, true, true] : List Bool).getD 4 false)
        && Validity.isValidAt (.array [false, true, true, true, true]) 4) :=
  (compare_masks_with_lhs_validity_only
    ⟨[true, true, false, true, false], .array [false, true, true, true, true]⟩
    ⟨[false, false, false, true, true], .array [false, true, true, true, true]⟩
    .lessThan rfl rfl).2.2 4 (by decide)

end Vortex
